import Mathlib

/-!
Shallow embedding of the climate-corrected Bullard-plot pipeline
(`Notebooks/Climate-corrected Bullard plots.ipynb`).

Numeric arrays are `List K` over a linear ordered field `K`; the
transcendental helpers `erfc` and `sqrt` (from `scipy.special` / `numpy`)
are explicit function parameters, so every definition stays executable and
theorems can either quantify over them or instantiate them.
-/

namespace Bullard

variable {K : Type} [LinearOrderedField K]

/-- `np.clip(x, lo, hi)`. -/
def clip (x lo hi : K) : K := min (max x lo) hi

/-- A draw from `np.random.normal(mu, sigma)`, with the unit-normal noise
made explicit: the drawn value is `mu + sigma * noise`. -/
def normal (mu sigma noise : K) : K := mu + sigma * noise

/-- `y2s`: years to seconds, `t*3.15567*1e7`. -/
def y2s (t : K) : K := t * 3.15567 * 1e7

/-- Module-level constant `cp = 800.0` (heat capacity). -/
def cp : K := 800.0

/-- Module-level constant `rho = 2700.0` (density). -/
def rho : K := 2700.0

/-- Successive differences against a running previous value:
`diffs p [z1, z2, ...] = [z1 - p, z2 - z1, ...]`; with `p = 0` this is
`np.diff(np.hstack([[0.0], z]))`. -/
def diffs (p : K) : List K → List K
  | [] => []
  | z :: rest => (z - p) :: diffs z rest

/-- `np.cumsum` with an explicit accumulator (`cumsum 0 xs` is the numpy
cumulative sum). -/
def cumsum (acc : K) : List K → List K
  | [] => []
  | x :: rest => (acc + x) :: cumsum (acc + x) rest

/-- `thermal_resistance(z, k)` from the notebook.  Note: the body computes
`delta_z = np.diff(np.hstack([[0.0], z_k]))` from the **module-level**
array `z_k`, not from the parameter `z`; the global is the explicit first
argument `zk` here, and the parameter `z` is (faithfully) unused. -/
def thermal_resistance (zk : List K) (z k : List K) : List K :=
  cumsum 0 (List.zipWith (fun dz kv => dz / kv) (diffs 0 zk) k)

/-- Modelled from the spec: the Thermal Resistance Calculator contract
`R_i = Σ_{j≤i} Δz_j / k_j` with `Δz_j = z_j − z_{j−1}`, `z_0 = 0`, computed
from the *given* depth array `z` (used only to compare with the source's
`thermal_resistance`, which reads the global `z_k` instead). -/
def resistance_spec (z k : List K) : List K :=
  cumsum 0 (List.zipWith (fun dz kv => dz / kv) (diffs 0 z) k)

/-- `climate_correction_period(kappa, t0, t1, Tk, z)`:
`Tk*(erfc(z/(2.0*np.sqrt(kappa*t1))) - erfc(z/(2.0*np.sqrt(kappa*t0))))`,
with `erfc` and `sqrt` as explicit function parameters. -/
def climate_correction_period (erfc sqrt : K → K) (kappa t0 t1 Tk z : K) : K :=
  Tk * (erfc (z / (2 * sqrt (kappa * t1))) - erfc (z / (2 * sqrt (kappa * t0))))

/-- The additive accumulation `T += climate_correction_period(...)` over an
epoch set, at a single depth `z`: each epoch is `(t0, t1, Tk)`. -/
def apply_correction_set (erfc sqrt : K → K) (kappa : K)
    (epochs : List (K × K × K)) (z T : K) : K :=
  epochs.foldl
    (fun acc e => acc + climate_correction_period erfc sqrt kappa e.1 e.2.1 e.2.2 z) T

/-- Gram determinant `n·ΣR² − (ΣR)²` of the two-column design matrix
`np.vstack([R, np.ones(len(R))]).T`. -/
def gram (R : List K) : K :=
  (R.length : K) * (R.map fun r => r * r).sum - R.sum * R.sum

/-- `least_squares(R, T)`: `np.linalg.lstsq` on the design matrix `[R, 1]`.
When the Gram determinant is nonzero this is the unique ordinary
least-squares solution of `T = m·R + c`; when it is zero (all resistances
equal) `lstsq` returns the minimum-norm least-squares solution — it never
raises. -/
def least_squares [DecidableEq K] (R T : List K) : K × K :=
  let n : K := (R.length : K)
  let sR := R.sum
  let sT := T.sum
  let sRR := (R.map fun r => r * r).sum
  let sRT := (List.zipWith (fun r t => r * t) R T).sum
  if gram R = 0 then
    let r := R.headD 0
    let tbar := sT / n
    (r * tbar / (r * r + 1), tbar / (r * r + 1))
  else
    ((n * sRT - sR * sT) / gram R, (sRR * sT - sR * sRT) / gram R)

/-- Perturbed epoch boundary time in the sensitivity loop:
`np.clip(np.random.normal(t, y2s(1e3)), 1e-6, 1e99)`. -/
def perturb_time (t noise : K) : K := clip (normal t (y2s 1e3) noise) 1e-6 1e99

/-- NASA decadal epoch time: `np.clip(t, 1e-6, 1e99)` (no random draw). -/
def clip_time (t : K) : K := clip t 1e-6 1e99

/-- Perturbed conductivity:
`np.clip(np.random.normal(k, sigma_k), 0.001, 1e99)`. -/
def perturb_conductivity (kv sigma noise : K) : K :=
  clip (normal kv sigma noise) 0.001 1e99

/-- Diffusivity `a_random = k_random/(cp*rho)`. -/
def diffusivity (kv : K) : K := kv / (cp * rho)

/-- A palaeoclimate epoch row: start time `t0` and end time `t1` in seconds
before present, surface-temperature delta `Tc` and its uncertainty
`sigmaTc`. -/
structure Epoch (K : Type) where
  t0 : K
  t1 : K
  Tc : K
  sigmaTc : K

/-- The unit-normal noises drawn for one palaeoclimate epoch inside one
Monte Carlo iteration. -/
structure EpochNoise (K : Type) where
  nt0 : K
  nt1 : K
  nTc : K

/-- A NASA decadal epoch: boundary times and mean temperature anomaly (its
Monte Carlo sigma is hard-coded to `0.1` in the loop). -/
structure NasaEpoch (K : Type) where
  t0 : K
  t1 : K
  Tc : K

/-- All unit-normal noises drawn in one Monte Carlo iteration. -/
structure IterNoise (K : Type) where
  nT : List K
  nk : List K
  npal : List (EpochNoise K)
  nnasa : List K

/-- Elementwise combination of three same-length arrays (numpy vectorised
arithmetic on three same-shape arrays). -/
def zipWith3 {α β γ δ : Type} (f : α → β → γ → δ) :
    List α → List β → List γ → List δ
  | a :: as, b :: bs, c :: cs => f a b c :: zipWith3 f as bs cs
  | _, _, _ => []

/-- One iteration of the sensitivity-analysis loop (cell 13): perturb the
interpolated temperatures and the conductivities, compute thermal resistance
and the uncorrected fit, accumulate the palaeoclimate and NASA climate
corrections into the temperature array, and compute the corrected fit.
Returns `(least_squares R T_random, least_squares R T_corrected)`. -/
def mc_iter [DecidableEq K] (erfc sqrt : K → K)
    (zk k sigma_k T_k sigma_T_k : List K)
    (palaeo : List (Epoch K × EpochNoise K)) (nasa : List (NasaEpoch K × K))
    (nT nk : List K) : (K × K) × (K × K) :=
  let T_random := zipWith3 normal T_k sigma_T_k nT
  let k_random := zipWith3 perturb_conductivity k sigma_k nk
  let a_random := k_random.map diffusivity
  let R := thermal_resistance zk zk k_random
  let q := least_squares R T_random
  let T1 := palaeo.foldl (fun Tacc pe =>
      zipWith3 (fun Ti ai zi =>
          Ti + climate_correction_period erfc sqrt ai
            (perturb_time pe.1.t0 pe.2.nt0) (perturb_time pe.1.t1 pe.2.nt1)
            (normal pe.1.Tc pe.1.sigmaTc pe.2.nTc) zi)
        Tacc a_random zk) T_random
  let T2 := nasa.foldl (fun Tacc ne =>
      zipWith3 (fun Ti ai zi =>
          Ti + climate_correction_period erfc sqrt ai
            (clip_time ne.1.t0) (clip_time ne.1.t1)
            (normal ne.1.Tc 0.1 ne.2) zi)
        Tacc a_random zk) T1
  let qc := least_squares R T2
  (q, qc)

/-- The Monte Carlo driver: run `mc_iter` once per noise record and collect
the uncorrected and corrected heat-flow slopes (`q_all`, `qc_all`). -/
def mc_driver [DecidableEq K] (erfc sqrt : K → K)
    (zk k sigma_k T_k sigma_T_k : List K)
    (palaeo : List (Epoch K)) (nasa : List (NasaEpoch K))
    (noises : List (IterNoise K)) : List K × List K :=
  (noises.map fun ns =>
      (mc_iter erfc sqrt zk k sigma_k T_k sigma_T_k (palaeo.zip ns.npal)
        (nasa.zip ns.nnasa) ns.nT ns.nk).1.1,
   noises.map fun ns =>
      (mc_iter erfc sqrt zk k sigma_k T_k sigma_T_k (palaeo.zip ns.npal)
        (nasa.zip ns.nnasa) ns.nT ns.nk).2.1)

/-- `np.mean`. -/
def mean (xs : List K) : K := xs.sum / (xs.length : K)

/-- Population variance, the square of `np.std`. -/
def variance (xs : List K) : K :=
  ((xs.map fun x => (x - mean xs) * (x - mean xs)).sum) / (xs.length : K)

end Bullard

namespace Bullard

variable {K : Type} [LinearOrderedField K]

theorem clip_le_right (x lo hi : K) : clip x lo hi ≤ hi := min_le_right _ _

theorem le_clip (x lo hi : K) (h : lo ≤ hi) : lo ≤ clip x lo hi :=
  le_min (le_max_right _ _) h

theorem clip_eq_self (x lo hi : K) (h1 : lo ≤ x) (h2 : x ≤ hi) : clip x lo hi = x := by
  unfold clip
  rw [max_eq_left h1, min_eq_left h2]

theorem normal_zero_sigma (mu noise : K) : normal mu 0 noise = mu := by
  simp [normal]

theorem sum_map_linear (m c : K) (R : List K) :
    (R.map fun r => m * r + c).sum = m * R.sum + c * (R.length : K) := by
  induction R with
  | nil => simp
  | cons x rest ih =>
      simp only [List.map_cons, List.sum_cons, ih, List.length_cons]
      push_cast
      ring

theorem sum_map_mul_linear (m c : K) (R : List K) :
    (R.map fun r => r * (m * r + c)).sum
      = m * (R.map fun r => r * r).sum + c * R.sum := by
  induction R with
  | nil => simp
  | cons x rest ih =>
      simp only [List.map_cons, List.sum_cons, ih]
      ring

theorem zipWith_mul_map (f : K → K) (R : List K) :
    List.zipWith (fun r t => r * t) R (R.map f) = R.map fun r => r * f r := by
  induction R with
  | nil => rfl
  | cons x rest ih => simp [ih]

theorem sum_map_shift_sq (x : K) (R : List K) :
    (R.map fun r => (x - r) * (x - r)).sum
      = (R.length : K) * (x * x) - 2 * x * R.sum + (R.map fun r => r * r).sum := by
  induction R with
  | nil => simp
  | cons a rest ih =>
      simp only [List.map_cons, List.sum_cons, ih, List.length_cons]
      push_cast
      ring

theorem gram_cons (x : K) (R : List K) :
    gram (x :: R) = gram R + (R.map fun r => (x - r) * (x - r)).sum := by
  simp only [gram, List.map_cons, List.sum_cons, List.length_cons, sum_map_shift_sq]
  push_cast
  ring

theorem sum_sq_shift_nonneg (x : K) (R : List K) :
    0 ≤ (R.map fun r => (x - r) * (x - r)).sum :=
  List.sum_nonneg fun y hy => by
    obtain ⟨r, _, rfl⟩ := List.mem_map.1 hy
    exact mul_self_nonneg _

theorem gram_nonneg (R : List K) : 0 ≤ gram R := by
  induction R with
  | nil => simp [gram]
  | cons x rest ih =>
      rw [gram_cons]
      exact add_nonneg ih (sum_sq_shift_nonneg x rest)

theorem sum_sq_shift_pos (x b : K) (R : List K) (hb : b ∈ R) (hxb : x ≠ b) :
    0 < (R.map fun r => (x - r) * (x - r)).sum := by
  induction R with
  | nil => cases hb
  | cons a rest ih =>
      simp only [List.map_cons, List.sum_cons]
      rcases List.mem_cons.1 hb with h | h
      · exact add_pos_of_pos_of_nonneg
          (mul_self_pos.mpr (sub_ne_zero.mpr (h ▸ hxb))) (sum_sq_shift_nonneg x rest)
      · exact add_pos_of_nonneg_of_pos (mul_self_nonneg _) (ih h)

theorem gram_pos (R : List K) (a b : K) (hab : a ≠ b) (ha : a ∈ R) (hb : b ∈ R) :
    0 < gram R := by
  induction R with
  | nil => cases ha
  | cons x rest ih =>
      rw [gram_cons]
      rcases List.mem_cons.1 ha with hax | ha'
      · rcases List.mem_cons.1 hb with hbx | hb'
        · exact absurd (hax.trans hbx.symm) hab
        · subst hax
          exact add_pos_of_nonneg_of_pos (gram_nonneg rest)
            (sum_sq_shift_pos a b rest hb' hab)
      · rcases List.mem_cons.1 hb with hbx | hb'
        · subst hbx
          exact add_pos_of_nonneg_of_pos (gram_nonneg rest)
            (sum_sq_shift_pos b a rest ha' (Ne.symm hab))
        · exact add_pos_of_pos_of_nonneg (ih ha' hb') (sum_sq_shift_nonneg x rest)

theorem cumsum_length (a : K) (xs : List K) : (cumsum a xs).length = xs.length := by
  induction xs generalizing a with
  | nil => rfl
  | cons x rest ih => simp [cumsum, ih]

theorem cumsum_get (a : K) (xs : List K) (i : ℕ) (hi : i < (cumsum a xs).length) :
    (cumsum a xs).get ⟨i, hi⟩ = a + (xs.take (i + 1)).sum := by
  induction xs generalizing a i with
  | nil => cases hi
  | cons x rest ih =>
      cases i with
      | zero => simp [cumsum]
      | succ j =>
          have hj : j < (cumsum (a + x) rest).length := by
            simpa [cumsum] using hi
          have := ih (a + x) j hj
          simp only [cumsum, List.get_cons_succ, List.take_succ_cons, List.sum_cons]
          rw [this]
          ring

theorem cumsum_chain_le (a : K) (xs : List K)
    (h : ∀ y ∈ xs.tail, 0 ≤ y) : List.Chain' (· ≤ ·) (cumsum a xs) := by
  induction xs generalizing a with
  | nil => exact List.chain'_nil
  | cons x rest ih =>
      cases rest with
      | nil => simp [cumsum]
      | cons y rest' =>
          have hchain : List.Chain' (· ≤ ·) (cumsum (a + x) (y :: rest')) := by
            refine ih (a + x) ?_
            intro w hw
            exact h w (List.mem_cons_of_mem y hw)
          have hy : (0 : K) ≤ y := h y (List.mem_cons_self y rest')
          have : cumsum a (x :: y :: rest')
              = (a + x) :: (a + x + y) :: cumsum (a + x + y) rest' := rfl
          rw [this]
          refine List.chain'_cons.2 ⟨le_add_of_nonneg_right hy, ?_⟩
          simpa [cumsum] using hchain

theorem diffs_length (p : K) (zs : List K) : (diffs p zs).length = zs.length := by
  induction zs generalizing p with
  | nil => rfl
  | cons z rest ih => simp [diffs, ih]

theorem diffs_getD (p : K) (zs : List K) (j : ℕ) (hj : j < zs.length) :
    (diffs p zs).getD j 0
      = zs.getD j 0 - (if j = 0 then p else zs.getD (j - 1) 0) := by
  induction zs generalizing p j with
  | nil => cases hj
  | cons z rest ih =>
      cases j with
      | zero => simp [diffs]
      | succ jj =>
          have hjj : jj < rest.length := Nat.lt_of_succ_lt_succ hj
          have := ih z jj hjj
          cases jj with
          | zero =>
              simp only [diffs, List.getD_cons_succ] at this ⊢
              simpa using this
          | succ jjj =>
              simp only [diffs, List.getD_cons_succ] at this ⊢
              simpa using this

theorem zipWith_getD {α β γ : Type} (f : α → β → γ) (as : List α) (bs : List β)
    (j : ℕ) (dA : α) (dB : β) (dC : γ)
    (ha : j < as.length) (hb : j < bs.length) :
    (List.zipWith f as bs).getD j dC = f (as.getD j dA) (bs.getD j dB) := by
  induction as generalizing bs j with
  | nil => cases ha
  | cons a as' ih =>
      cases bs with
      | nil => cases hb
      | cons b bs' =>
          cases j with
          | zero => rfl
          | succ jj =>
              exact ih bs' jj (Nat.lt_of_succ_lt_succ ha) (Nat.lt_of_succ_lt_succ hb)

theorem zipWith_div_diffs_nonneg (p : K) (zs ks : List K)
    (hchain : List.Chain' (· < ·) (p :: zs)) (hks : ∀ kv ∈ ks, 0 < kv) :
    ∀ y ∈ List.zipWith (fun dz kv => dz / kv) (diffs p zs) ks, 0 ≤ y := by
  induction zs generalizing p ks with
  | nil => intro y hy; simp [diffs] at hy
  | cons z rest ih =>
      cases ks with
      | nil => intro y hy; simp at hy
      | cons kv ks' =>
          intro y hy
          simp only [diffs, List.zipWith_cons_cons, List.mem_cons] at hy
          rcases hy with rfl | hy
          · have hpz : p < z := (List.chain'_cons.1 hchain).1
            exact div_nonneg (sub_nonneg.2 hpz.le) (hks kv (List.mem_cons_self _ _)).le
          · exact ih z ks' (List.chain'_cons.1 hchain).2
              (fun w hw => hks w (List.mem_cons_of_mem _ hw)) y hy

/-- **C1**: for positive diffusivity and epoch boundary times and any depth,
`climate_correction_period` returns
`Tk * (erfc(z/(2√(κ·t_end))) − erfc(z/(2√(κ·t_start))))` (the function's
`t0` argument is the epoch start, `t1` the epoch end), and the full
correction over an epoch set — the `T += climate_correction_period(...)`
accumulation — equals the initial temperature plus the sum of this
expression over the epochs. -/
theorem climate_correction_period_formula (erfc sqrt : K → K)
    (kappa tstart tend Tk z : K) (hk : 0 < kappa) (hs : 0 < tstart)
    (he : 0 < tend) (hz : 0 ≤ z) :
    climate_correction_period erfc sqrt kappa tstart tend Tk z
      = Tk * (erfc (z / (2 * sqrt (kappa * tend)))
          - erfc (z / (2 * sqrt (kappa * tstart))))
    ∧ ∀ (epochs : List (K × K × K)) (T : K),
        apply_correction_set erfc sqrt kappa epochs z T
          = T + (epochs.map fun e =>
              climate_correction_period erfc sqrt kappa e.1 e.2.1 e.2.2 z).sum := by
  refine ⟨rfl, ?_⟩
  intro epochs T
  induction epochs generalizing T with
  | nil => simp [apply_correction_set]
  | cons e rest ih =>
      simp only [apply_correction_set, List.foldl_cons, List.map_cons,
        List.sum_cons] at ih ⊢
      rw [ih]
      ring

/-- Witness for `climate_correction_period_formula` at `K = ℚ`,
`erfc = sqrt = id`, `κ = t_start = t_end = Tk = 1`, `z = 0`. -/
theorem climate_correction_period_formula_witness :
    (0 : ℚ) < 1 ∧ (0 : ℚ) ≤ 0 ∧
    (climate_correction_period (K := ℚ) (fun x => x) (fun x => x) 1 1 1 1 0
        = 1 * ((fun x => x) (0 / (2 * (fun x => x) (1 * 1)))
            - (fun x => x) (0 / (2 * (fun x => x) (1 * 1))))
      ∧ ∀ (epochs : List (ℚ × ℚ × ℚ)) (T : ℚ),
          apply_correction_set (fun x => x) (fun x => x) 1 epochs 0 T
            = T + (epochs.map fun e =>
                climate_correction_period (fun x => x) (fun x => x) 1
                  e.1 e.2.1 e.2.2 0).sum) :=
  ⟨by norm_num, le_refl 0,
    climate_correction_period_formula (fun x => x) (fun x => x) 1 1 1 1 0
      (by norm_num) (by norm_num) (by norm_num) (le_refl 0)⟩

/-- **C3**: `thermal_resistance` does not depend on its first argument `z`
(with the module-level `z_k` fixed): the segment thicknesses come from the
global `z_k`, so any two depth arguments give the same result. -/
theorem thermal_resistance_ignores_depth_param (zk z z' k : List K) :
    thermal_resistance zk z k = thermal_resistance zk z' k := rfl

/-- **C4** (amended): at the surface `z = 0`, with `t_end = 0` clipped to
the positive floor, the correction is `Tk·(erfc 0 − erfc 0) = 0` — it
vanishes for every `erfc`, `κ` and `Tk`; it does not equal `Tk`. -/
theorem climate_correction_surface_zero (erfc sqrt : K → K)
    (kappa tstart Tk : K) (hk : 0 < kappa) (hs : 0 < tstart) :
    climate_correction_period erfc sqrt kappa tstart (clip 0 1e-6 1e99) Tk 0
      = 0 := by
  simp [climate_correction_period]

/-- Witness for `climate_correction_surface_zero` at `K = ℚ`,
`erfc = sqrt = id`, `κ = t_start = Tk = 1`. -/
theorem climate_correction_surface_zero_witness :
    (0 : ℚ) < 1 ∧
    climate_correction_period (K := ℚ) (fun x => x) (fun x => x) 1 1
        (clip 0 1e-6 1e99) 1 0 = 0 :=
  ⟨by norm_num,
    climate_correction_surface_zero (fun x => x) (fun x => x) 1 1 1
      (by norm_num) (by norm_num)⟩

/-- **C4** counterexample: with the toy instance `erfc := fun x => 1 - x`
(which agrees with the real complementary error function at `0`:
`erfc 0 = 1`), `sqrt := id`, `κ = 1`, `t_start = 1`, `Tk = 1`, the
correction at depth `z = 0` with `t_end = 0` clipped to the floor is `0`,
not `Tk = 1`: both erfc arguments are `0`, so the bracket cancels. -/
theorem climate_correction_surface_counterexample :
    climate_correction_period (K := ℚ) (fun x => 1 - x) (fun x => x) 1 1
        (clip 0 1e-6 1e99) 1 0 ≠ 1 := by
  norm_num [climate_correction_period]

/-- **C5**: the corrections of two abutting epochs `(t0, t1)` and
`(t1, t2)` with the same `Tk` sum to the correction of the merged epoch
`(t0, t2)`: the shared `erfc` term at `t1` telescopes, for every `erfc`,
`sqrt`, depth and diffusivity. -/
theorem climate_correction_superposition (erfc sqrt : K → K)
    (kappa Tk z t0 t1 t2 : K) (h01 : t1 < t0) (h12 : t2 < t1) (h2 : 0 < t2)
    (hk : 0 < kappa) :
    climate_correction_period erfc sqrt kappa t0 t1 Tk z
      + climate_correction_period erfc sqrt kappa t1 t2 Tk z
      = climate_correction_period erfc sqrt kappa t0 t2 Tk z := by
  simp only [climate_correction_period]
  ring

/-- Witness for `climate_correction_superposition` at `K = ℚ`,
`erfc = sqrt = id`, `κ = Tk = z = 1`, `(t0, t1, t2) = (3, 2, 1)`. -/
theorem climate_correction_superposition_witness :
    (2 : ℚ) < 3 ∧ (1 : ℚ) < 2 ∧ (0 : ℚ) < 1 ∧
    climate_correction_period (K := ℚ) (fun x => x) (fun x => x) 1 3 2 1 1
        + climate_correction_period (K := ℚ) (fun x => x) (fun x => x) 1 2 1 1 1
      = climate_correction_period (K := ℚ) (fun x => x) (fun x => x) 1 3 1 1 1 :=
  ⟨by norm_num, by norm_num, by norm_num,
    climate_correction_superposition (fun x => x) (fun x => x) 1 1 1 3 2 1
      (by norm_num) (by norm_num) (by norm_num) (by norm_num)⟩

/-- **C2** (amended): `thermal_resistance` takes its segment thicknesses
from the module-level `z_k`; when the depth argument coincides with it,
entry `i` is the partial sum `Σ_{j≤i} Δz_j/k_j`, where segment `j` is
`(z_j − z_{j−1})/k_j` with `z_0 = 0`, and the first entry is `z_1/k_1`
exactly. -/
theorem thermal_resistance_formula (zk k : List K)
    (hlen : k.length = zk.length) (hinc : List.Chain' (· < ·) zk) :
    (∀ i (hi : i < (thermal_resistance zk zk k).length),
        (thermal_resistance zk zk k).get ⟨i, hi⟩
          = ((List.zipWith (fun dz kv => dz / kv) (diffs 0 zk) k).take (i + 1)).sum)
    ∧ (∀ j, j < zk.length →
        (List.zipWith (fun dz kv => dz / kv) (diffs 0 zk) k).getD j 0
          = (zk.getD j 0 - if j = 0 then 0 else zk.getD (j - 1) 0) / k.getD j 0)
    ∧ (zk ≠ [] →
        (thermal_resistance zk zk k).headD 0 = zk.headD 0 / k.headD 0) := by
  refine ⟨?_, ?_, ?_⟩
  · intro i hi
    simpa using cumsum_get 0 _ i hi
  · intro j hj
    have hjd : j < (diffs 0 zk).length := by rw [diffs_length]; exact hj
    have hjk : j < k.length := by rw [hlen]; exact hj
    rw [zipWith_getD _ _ _ j 0 0 0 hjd hjk, diffs_getD 0 zk j hj]
  · intro hne
    cases zk with
    | nil => exact absurd rfl hne
    | cons z1 zr =>
        cases k with
        | nil => simp at hlen
        | cons k1 kr => simp [thermal_resistance, diffs, cumsum]

/-- Witness for `thermal_resistance_formula` at `z_k = [1, 2]`,
`k = [2, 4]` over `ℚ`. -/
theorem thermal_resistance_formula_witness :
    ([2, 4] : List ℚ).length = ([1, 2] : List ℚ).length ∧
    List.Chain' (· < ·) ([1, 2] : List ℚ) ∧
    ((∀ i (hi : i < (thermal_resistance [1, 2] [1, 2] ([2, 4] : List ℚ)).length),
        (thermal_resistance [1, 2] [1, 2] ([2, 4] : List ℚ)).get ⟨i, hi⟩
          = ((List.zipWith (fun dz kv => dz / kv)
              (diffs 0 ([1, 2] : List ℚ)) [2, 4]).take (i + 1)).sum)
    ∧ (∀ j, j < ([1, 2] : List ℚ).length →
        (List.zipWith (fun dz kv => dz / kv)
            (diffs 0 ([1, 2] : List ℚ)) [2, 4]).getD j 0
          = (([1, 2] : List ℚ).getD j 0
              - if j = 0 then 0 else ([1, 2] : List ℚ).getD (j - 1) 0)
            / ([2, 4] : List ℚ).getD j 0)
    ∧ (([1, 2] : List ℚ) ≠ [] →
        (thermal_resistance [1, 2] [1, 2] ([2, 4] : List ℚ)).headD 0
          = ([1, 2] : List ℚ).headD 0 / ([2, 4] : List ℚ).headD 0)) :=
  ⟨rfl, by norm_num [List.chain'_cons, List.chain'_singleton],
    thermal_resistance_formula ([1, 2] : List ℚ) [2, 4] rfl
      (by norm_num [List.chain'_cons, List.chain'_singleton])⟩

/-- **C2** counterexample: the result of `thermal_resistance` does *not*
follow the claimed formula in its depth argument: with the module-level
`z_k = [1]`, depth argument `z = [2]` and `k = [1]`, the function returns
`[1]` (from the global) while the contract formula applied to the argument
`z` gives `[2]`. -/
theorem thermal_resistance_param_counterexample :
    thermal_resistance ([1] : List ℚ) [2] [1] = [1]
    ∧ resistance_spec ([2] : List ℚ) [1] = [2]
    ∧ thermal_resistance ([1] : List ℚ) [2] [1]
        ≠ resistance_spec ([2] : List ℚ) [1] := by
  refine ⟨?_, ?_, ?_⟩ <;>
    norm_num [thermal_resistance, resistance_spec, diffs, cumsum]

/-- **C10**: for strictly increasing depths `z_k` and strictly positive
conductivities, the resistance profile is non-decreasing: each adjacent
step adds `(z_{i+1} − z_i)/k_{i+1} ≥ 0`. -/
theorem thermal_resistance_monotone (zk z k : List K)
    (hinc : List.Chain' (· < ·) zk) (hk : ∀ kv ∈ k, 0 < kv) :
    List.Chain' (· ≤ ·) (thermal_resistance zk z k) := by
  unfold thermal_resistance
  apply cumsum_chain_le
  intro y hy
  cases zk with
  | nil => simp [diffs] at hy
  | cons z1 zr =>
      cases k with
      | nil => simp at hy
      | cons k1 kr =>
          simp only [diffs, List.zipWith_cons_cons, List.tail_cons] at hy
          exact zipWith_div_diffs_nonneg z1 zr kr hinc
            (fun w hw => hk w (List.mem_cons_of_mem _ hw)) y hy

/-- Witness for `thermal_resistance_monotone` at `z_k = [1, 2]`,
`k = [2, 4]` over `ℚ`. -/
theorem thermal_resistance_monotone_witness :
    List.Chain' (· < ·) ([1, 2] : List ℚ) ∧
    (∀ kv ∈ ([2, 4] : List ℚ), 0 < kv) ∧
    List.Chain' (· ≤ ·) (thermal_resistance ([1, 2] : List ℚ) [1, 2] [2, 4]) :=
  ⟨by norm_num [List.chain'_cons, List.chain'_singleton], by decide,
    thermal_resistance_monotone ([1, 2] : List ℚ) [1, 2] [2, 4]
      (by norm_num [List.chain'_cons, List.chain'_singleton]) (by decide)⟩

/-- **C7** (amended): `least_squares` never raises: whenever the resistance
input has at least two distinct values the Gram determinant is positive and
the returned pair is the unique ordinary-least-squares solution — it
satisfies the OLS normal equations `ΣR²·m + ΣR·c = ΣRT` and
`ΣR·m + n·c = ΣT`; with fewer than two distinct values the underlying
`np.linalg.lstsq` returns the minimum-norm least-squares solution instead
of failing (there is no `UnderdeterminedFitError` in the code). -/
theorem least_squares_normal_equations [DecidableEq K] (R T : List K)
    (hdist : ∃ a ∈ R, ∃ b ∈ R, a ≠ b) :
    (R.map fun r => r * r).sum * (least_squares R T).1
        + R.sum * (least_squares R T).2
      = (List.zipWith (fun r t => r * t) R T).sum
    ∧ R.sum * (least_squares R T).1 + (R.length : K) * (least_squares R T).2
      = T.sum := by
  obtain ⟨a, ha, b, hb, hab⟩ := hdist
  have hg : gram R ≠ 0 := ne_of_gt (gram_pos R a b hab ha hb)
  simp only [least_squares, if_neg hg]
  constructor
  · field_simp
    simp only [gram]
    ring
  · field_simp
    simp only [gram]
    ring

/-- Witness for `least_squares_normal_equations` at `R = [0, 1]`,
`T = [0, 1]` over `ℚ`. -/
theorem least_squares_normal_equations_witness :
    (∃ a ∈ ([0, 1] : List ℚ), ∃ b ∈ ([0, 1] : List ℚ), a ≠ b) ∧
    ((([0, 1] : List ℚ).map fun r => r * r).sum
          * (least_squares ([0, 1] : List ℚ) [0, 1]).1
        + ([0, 1] : List ℚ).sum * (least_squares ([0, 1] : List ℚ) [0, 1]).2
      = (List.zipWith (fun r t => r * t) ([0, 1] : List ℚ) [0, 1]).sum
    ∧ ([0, 1] : List ℚ).sum * (least_squares ([0, 1] : List ℚ) [0, 1]).1
        + (([0, 1] : List ℚ).length : ℚ)
          * (least_squares ([0, 1] : List ℚ) [0, 1]).2
      = ([0, 1] : List ℚ).sum) :=
  ⟨⟨0, by decide, 1, by decide, by decide⟩,
    least_squares_normal_equations ([0, 1] : List ℚ) [0, 1]
      ⟨0, by decide, 1, by decide, by decide⟩⟩

/-- **C7** counterexample: on a resistance input with fewer than two
distinct values the estimator does not fail — `least_squares([1,1],[2,2])`
returns the minimum-norm least-squares pair `(1, 1)`. -/
theorem least_squares_no_failure_counterexample :
    least_squares ([1, 1] : List ℚ) [2, 2] = (1, 1) := by
  have hg : gram ([1, 1] : List ℚ) = 0 := by norm_num [gram]
  simp only [least_squares, if_pos hg]
  norm_num [Prod.ext_iff]

/-- **C8**: fitting data generated exactly as `T = m·R + c` (zero noise)
over resistances with at least two distinct values recovers `(m, c)`
exactly, hence within the `1e-9` floating-point tolerance. -/
theorem least_squares_roundtrip [DecidableEq K] (m c : K) (R : List K)
    (hdist : ∃ a ∈ R, ∃ b ∈ R, a ≠ b) :
    |(least_squares R (R.map fun r => m * r + c)).1 - m| ≤ 1e-9
    ∧ |(least_squares R (R.map fun r => m * r + c)).2 - c| ≤ 1e-9 := by
  obtain ⟨a, ha, b, hb, hab⟩ := hdist
  have hg : gram R ≠ 0 := ne_of_gt (gram_pos R a b hab ha hb)
  have hm : (least_squares R (R.map fun r => m * r + c)).1 = m := by
    simp only [least_squares, if_neg hg, zipWith_mul_map, sum_map_mul_linear,
      sum_map_linear]
    rw [div_eq_iff hg]
    simp only [gram]
    ring
  have hc : (least_squares R (R.map fun r => m * r + c)).2 = c := by
    simp only [least_squares, if_neg hg, zipWith_mul_map, sum_map_mul_linear,
      sum_map_linear]
    rw [div_eq_iff hg]
    simp only [gram]
    ring
  rw [hm, hc, sub_self, sub_self, abs_zero]
  constructor <;> norm_num

/-- Witness for `least_squares_roundtrip` at `m = 3`, `c = 5`,
`R = [0, 1]` over `ℚ`. -/
theorem least_squares_roundtrip_witness :
    (∃ a ∈ ([0, 1] : List ℚ), ∃ b ∈ ([0, 1] : List ℚ), a ≠ b) ∧
    |(least_squares ([0, 1] : List ℚ)
        (([0, 1] : List ℚ).map fun r => 3 * r + 5)).1 - 3| ≤ 1e-9
    ∧ |(least_squares ([0, 1] : List ℚ)
        (([0, 1] : List ℚ).map fun r => 3 * r + 5)).2 - 5| ≤ 1e-9 :=
  ⟨⟨0, by decide, 1, by decide, by decide⟩,
    least_squares_roundtrip (3 : ℚ) 5 [0, 1]
      ⟨0, by decide, 1, by decide, by decide⟩⟩

/-- **C9**: every perturbed epoch boundary time entering the Climate
Correction Engine is clipped into `[1e-6, 1e99]` and every perturbed
conductivity into `[0.001, 1e99]`, so for every random draw the derived
diffusivity `k/(cp·rho)` and the products `κ·t` under the square roots are
strictly positive — no division by zero or square-root domain error is
reachable. -/
theorem mc_clipping_positivity (t noise kv sigma nk tb : K) :
    ((1e-6 : K) ≤ perturb_time t noise ∧ perturb_time t noise ≤ 1e99)
    ∧ ((1e-6 : K) ≤ clip_time tb ∧ clip_time tb ≤ 1e99)
    ∧ ((0.001 : K) ≤ perturb_conductivity kv sigma nk
        ∧ perturb_conductivity kv sigma nk ≤ 1e99)
    ∧ 0 < diffusivity (perturb_conductivity kv sigma nk)
    ∧ 0 < diffusivity (perturb_conductivity kv sigma nk) * perturb_time t noise
    ∧ 0 < diffusivity (perturb_conductivity kv sigma nk) * clip_time tb := by
  have h1 : (1e-6 : K) ≤ 1e99 := by norm_num
  have h2 : (0.001 : K) ≤ 1e99 := by norm_num
  have ht : (1e-6 : K) ≤ perturb_time t noise := le_clip _ _ _ h1
  have htb : (1e-6 : K) ≤ clip_time tb := le_clip _ _ _ h1
  have hk : (0.001 : K) ≤ perturb_conductivity kv sigma nk := le_clip _ _ _ h2
  have htpos : 0 < perturb_time t noise := lt_of_lt_of_le (by norm_num) ht
  have htbpos : 0 < clip_time tb := lt_of_lt_of_le (by norm_num) htb
  have hkpos : 0 < perturb_conductivity kv sigma nk :=
    lt_of_lt_of_le (by norm_num) hk
  have hd : 0 < diffusivity (perturb_conductivity kv sigma nk) := by
    unfold diffusivity
    exact div_pos hkpos (by norm_num [cp, rho])
  exact ⟨⟨ht, clip_le_right _ _ _⟩, ⟨htb, clip_le_right _ _ _⟩,
    ⟨hk, clip_le_right _ _ _⟩, hd, mul_pos hd htpos, mul_pos hd htbpos⟩

theorem zipWith3_normal_zero (T sT nT : List K)
    (hsT : ∀ s ∈ sT, s = 0) (hl1 : sT.length = T.length)
    (hl2 : nT.length = T.length) :
    zipWith3 normal T sT nT = T := by
  induction T generalizing sT nT with
  | nil => cases sT <;> cases nT <;> rfl
  | cons t Ts ih =>
      cases sT with
      | nil => simp at hl1
      | cons s sTs =>
          cases nT with
          | nil => simp at hl2
          | cons n nTs =>
              have hs : s = 0 := hsT s (List.mem_cons_self _ _)
              simp only [zipWith3, hs, normal_zero_sigma]
              rw [ih sTs nTs (fun w hw => hsT w (List.mem_cons_of_mem _ hw))
                (by simpa using hl1) (by simpa using hl2)]

theorem zipWith3_perturb_conductivity_zero (k sk nk : List K)
    (hsk : ∀ s ∈ sk, s = 0) (hl1 : sk.length = k.length)
    (hl2 : nk.length = k.length)
    (hb : ∀ kv ∈ k, (0.001 : K) ≤ kv ∧ kv ≤ 1e99) :
    zipWith3 perturb_conductivity k sk nk = k := by
  induction k generalizing sk nk with
  | nil => cases sk <;> cases nk <;> rfl
  | cons kv ks ih =>
      cases sk with
      | nil => simp at hl1
      | cons s sks =>
          cases nk with
          | nil => simp at hl2
          | cons n nks =>
              have hs : s = 0 := hsk s (List.mem_cons_self _ _)
              have hbv := hb kv (List.mem_cons_self _ _)
              have hper : perturb_conductivity kv 0 n = kv := by
                unfold perturb_conductivity
                rw [normal_zero_sigma]
                exact clip_eq_self _ _ _ hbv.1 hbv.2
              simp only [zipWith3, hs, hper]
              rw [ih sks nks (fun w hw => hsk w (List.mem_cons_of_mem _ hw))
                (by simpa using hl1) (by simpa using hl2)
                (fun w hw => hb w (List.mem_cons_of_mem _ hw))]

theorem sum_of_constant (a : K) (xs : List K) (h : ∀ x ∈ xs, x = a) :
    xs.sum = (xs.length : K) * a := by
  induction xs with
  | nil => simp
  | cons x rest ih =>
      have hx : x = a := h x (List.mem_cons_self _ _)
      simp only [List.sum_cons, List.length_cons,
        ih (fun w hw => h w (List.mem_cons_of_mem _ hw)), hx]
      push_cast
      ring

theorem mean_of_constant (a : K) (xs : List K) (hne : xs ≠ [])
    (h : ∀ x ∈ xs, x = a) : mean xs = a := by
  have hlen : (xs.length : K) ≠ 0 :=
    Nat.cast_ne_zero.mpr fun h0 => hne (List.length_eq_zero.mp h0)
  rw [mean, sum_of_constant a xs h, mul_comm, mul_div_assoc, div_self hlen,
    mul_one]

theorem variance_of_constant (a : K) (xs : List K) (hne : xs ≠ [])
    (h : ∀ x ∈ xs, x = a) : variance xs = 0 := by
  have hm := mean_of_constant a xs hne h
  rw [variance]
  have hmap : (xs.map fun x => (x - mean xs) * (x - mean xs))
      = xs.map fun _ => (0 : K) := by
    refine List.map_congr_left fun x hx => ?_
    rw [h x hx, hm, sub_self, mul_zero]
  rw [hmap]
  simp

/-- **C6** (amended): with zero uncertainty on every *input*
(`σ_T_k = 0`, `σ_k = 0`, conductivities within the clip bounds), the
*uncorrected* heat flow is identical in every Monte Carlo iteration: its
mean over the iterations equals the single deterministic regression result
and its variance (hence standard deviation) is 0, for any `nsim ≥ 1` and
any realisation of the random draws.  (The *corrected* heat flow does not
satisfy this: epoch boundary times and NASA decadal temperatures are
perturbed with hard-coded nonzero sigmas, see the counterexample.) -/
theorem mc_driver_zero_sigma_uncorrected [DecidableEq K] (erfc sqrt : K → K)
    (zk k sk T sT : List K) (palaeo : List (Epoch K))
    (nasa : List (NasaEpoch K)) (noises : List (IterNoise K))
    (hsT : ∀ s ∈ sT, s = 0) (hsTl : sT.length = T.length)
    (hsk : ∀ s ∈ sk, s = 0) (hskl : sk.length = k.length)
    (hkb : ∀ kv ∈ k, (0.001 : K) ≤ kv ∧ kv ≤ 1e99)
    (hnT : ∀ ns ∈ noises, (IterNoise.nT ns).length = T.length)
    (hnk : ∀ ns ∈ noises, (IterNoise.nk ns).length = k.length)
    (hne : noises ≠ []) :
    mean (mc_driver erfc sqrt zk k sk T sT palaeo nasa noises).1
      = (least_squares (thermal_resistance zk zk k) T).1
    ∧ variance (mc_driver erfc sqrt zk k sk T sT palaeo nasa noises).1 = 0 := by
  have hconst : ∀ x ∈ (mc_driver erfc sqrt zk k sk T sT palaeo nasa noises).1,
      x = (least_squares (thermal_resistance zk zk k) T).1 := by
    intro x hx
    simp only [mc_driver, List.mem_map] at hx
    obtain ⟨ns, hns, rfl⟩ := hx
    have hT : zipWith3 normal T sT ns.nT = T :=
      zipWith3_normal_zero T sT ns.nT hsT hsTl (hnT ns hns)
    have hkr : zipWith3 perturb_conductivity k sk ns.nk = k :=
      zipWith3_perturb_conductivity_zero k sk ns.nk hsk hskl (hnk ns hns) hkb
    simp only [mc_iter, hT, hkr]
  have hne' : (mc_driver erfc sqrt zk k sk T sT palaeo nasa noises).1 ≠ [] := by
    simp only [mc_driver]
    intro h
    exact hne (List.map_eq_nil_iff.mp h)
  exact ⟨mean_of_constant _ _ hne' hconst, variance_of_constant _ _ hne' hconst⟩

/-- Witness for `mc_driver_zero_sigma_uncorrected`: one borehole point,
one iteration with nonzero noises, every input sigma zero, over `ℚ`. -/
theorem mc_driver_zero_sigma_uncorrected_witness :
    (∀ s ∈ ([0] : List ℚ), s = 0) ∧
    (∀ kv ∈ ([1] : List ℚ), (0.001 : ℚ) ≤ kv ∧ kv ≤ 1e99) ∧
    ([⟨[5], [7], [], []⟩] : List (IterNoise ℚ)) ≠ [] ∧
    (mean (mc_driver (K := ℚ) (fun x => x) (fun x => x) [1] [1] [0] [1] [0]
          [] [] [⟨[5], [7], [], []⟩]).1
        = (least_squares (thermal_resistance ([1] : List ℚ) [1] [1]) [1]).1
      ∧ variance (mc_driver (K := ℚ) (fun x => x) (fun x => x) [1] [1] [0]
          [1] [0] [] [] [⟨[5], [7], [], []⟩]).1 = 0) := by
  refine ⟨?_, ?_, ?_, ?_⟩
  · intro s hs
    rw [List.mem_singleton] at hs
    exact hs
  · intro kv hkv
    rw [List.mem_singleton] at hkv
    subst hkv
    constructor <;> norm_num
  · simp
  · refine mc_driver_zero_sigma_uncorrected (fun x => x) (fun x => x)
      [1] [1] [0] [1] [0] [] [] [⟨[5], [7], [], []⟩] ?_ rfl ?_ rfl ?_ ?_ ?_ ?_
    · intro s hs
      rw [List.mem_singleton] at hs
      exact hs
    · intro s hs
      rw [List.mem_singleton] at hs
      exact hs
    · intro kv hkv
      rw [List.mem_singleton] at hkv
      subst hkv
      constructor <;> norm_num
    · intro ns hns
      rw [List.mem_singleton] at hns
      subst hns
      rfl
    · intro ns hns
      rw [List.mem_singleton] at hns
      subst hns
      rfl
    · simp

set_option maxHeartbeats 4000000 in
/-- **C6** counterexample: all *input* uncertainties are zero
(`σ_T = [0,0]`, `σ_k = [0,0]`, the single palaeoclimate epoch has
`σ_Tc = 0`), `nsim = 2 ≥ 1` — yet the two iterations' *corrected* heat
flows differ (1620000 vs 1350000), because the epoch boundary time is
perturbed with the hard-coded `y2s(1e3)` sigma: the second iteration draws
time-noise `2/31556700000`, moving `t0` from `2` to `4`.  Hence the
standard deviation of the corrected heat flow over the iterations is not
`0`.  (Toy instances `erfc := fun x => 1 - x`, which matches the real
erfc at `0`, and `sqrt := id`.) -/
theorem mc_driver_zero_sigma_corrected_counterexample :
    variance (mc_driver (K := ℚ) (fun x => 1 - x) (fun x => x)
        [1, 2] [2160000, 2160000] [0, 0] [1, 2] [0, 0]
        [⟨2, 1, 1, 0⟩] []
        [⟨[0, 0], [0, 0], [⟨0, 0, 0⟩], []⟩,
         ⟨[0, 0], [0, 0], [⟨2 / 31556700000, 0, 0⟩], []⟩]).2 ≠ 0 := by
  norm_num [mc_driver, mc_iter, zipWith3, perturb_time, clip_time,
    perturb_conductivity, diffusivity, normal, clip, y2s, cp, rho,
    thermal_resistance, diffs, cumsum, least_squares, gram,
    climate_correction_period, mean, variance, min_def, max_def]

end Bullard
